import Mathlib

/-!
Verification of the Lie-algebra category methods
(`src/sage/categories/lie_algebras.py`) and the subfield-subcode
construction (`src/sage/coding/subfield_subcode.py`).

The Python code is shallowly embedded: a Lie algebra parent becomes a
record of its operations, the external `bch_iterator` becomes an abstract
term stream with an optional stopping index, and fallible methods return
`Except` / a dedicated result type.
-/

namespace Sage

/-- Model of a Lie algebra parent, as used by the `ParentMethods` of
`LieAlgebras`: the zero element, element addition, the element bracket
`_bracket_`, membership in the `Nilpotent` subcategory
(`self in LieAlgebras.Nilpotent`), the generating set returned by
`lie_algebra_generators()` (`none` when it is not in
`FiniteEnumeratedSets()`), and Python `==` on elements. -/
structure LieAlg (A : Type) where
  zero : A
  add : A → A → A
  bracketE : A → A → A
  nilpotent : Bool
  generators : Option (List A)
  beq : A → A → Bool

/-- Model of `self.sum(...)` over a finite sequence of elements:
fold addition over the list starting from zero. -/
def lsum {A : Type} (L : LieAlg A) (xs : List A) : A :=
  xs.foldl L.add L.zero

/-- Model of the iterator returned by the external `bch_iterator(X, Y)`:
`term k` is the `k`-th yielded term, and `len` is the number of terms
yielded before `StopIteration` (`none` when the iterator never stops). -/
structure BCHIter (A : Type) where
  term : Nat → A
  len : Option Nat

/-- The list of the first `n` terms actually produced by the iterator:
`n` terms when the iterator does not stop earlier, all of them otherwise. -/
def firstTerms {A : Type} (it : BCHIter A) (n : Nat) : List A :=
  match it.len with
  | none => (List.range n).map it.term
  | some N => (List.range (min n N)).map it.term

/-- Possible outcomes of `bch`: a value, the `ValueError` raised when the
algebra is not known to be nilpotent and no precision is given, or
non-termination (summing a never-stopping iterator). -/
inductive BCHResult (A : Type) where
  | ok : A → BCHResult A
  | precisionError : BCHResult A
  | diverge : BCHResult A
  deriving DecidableEq

/-- Model of `LieAlgebras.ParentMethods.bch(self, X, Y, prec=None)`;
`it` stands for `bch_iterator(X, Y)`.  Source:

    if self not in LieAlgebras.Nilpotent and prec is None:
        raise ValueError(...)
    if prec is None:
        return self.sum(Z for Z in bch_iterator(X, Y))
    bch = bch_iterator(X, Y)
    return self.sum(next(bch) for k in range(prec))

Summing the whole iterator terminates only when the iterator stops;
`range(prec)` consumes at most `prec` terms and a `StopIteration` from
`next` ends the generator expression early. -/
def bch {A : Type} (L : LieAlg A) (it : BCHIter A) (prec : Option Int) :
    BCHResult A :=
  if L.nilpotent = false ∧ prec = none then
    BCHResult.precisionError
  else
    match prec with
    | none =>
      match it.len with
      | some N => BCHResult.ok (lsum L ((List.range N).map it.term))
      | none => BCHResult.diverge
    | some p => BCHResult.ok (lsum L (firstTerms it p.toNat))

/-- Model of `LieAlgebras.ParentMethods.is_abelian`.  Source:

    G = self.lie_algebra_generators()
    if G not in FiniteEnumeratedSets():
        raise NotImplementedError("infinite number of generators")
    zero = self.zero()
    return all(x._bracket_(y) == zero for x in G for y in G)
-/
def is_abelian {A : Type} (L : LieAlg A) : Except String Bool :=
  match L.generators with
  | none => Except.error "infinite number of generators"
  | some G =>
    Except.ok (G.all fun x => G.all fun y => L.beq (L.bracketE x y) L.zero)

/-- Model of `LieAlgebras.ParentMethods.is_commutative`.  Source:

    return self.is_abelian()
-/
def is_commutative {A : Type} (L : LieAlg A) : Except String Bool :=
  is_abelian L

/-- An operand passed to `bracket`: either a Lie-algebra-like object
(`lhs in LieAlgebras` holds) or a plain value coercible to an element. -/
inductive BOperand (S A : Type) where
  | alg : S → BOperand S A
  | elem : A → BOperand S A

/-- Result of `bracket`: a product space, an ideal, or an element. -/
inductive BracketResult (P I A : Type) where
  | prodSpace : P → BracketResult P I A
  | idealOf : I → BracketResult P I A
  | elem : A → BracketResult P I A
  deriving DecidableEq

/-- External operations consumed by `bracket` dispatch: (sub-)Lie-algebra
product space, ideal generated by an element, and the coercion
`self(x)` of a plain value into an element of `self`. -/
structure ParentOps (S A P I : Type) where
  productSpace : S → S → P
  ideal : S → A → I
  coe : A → A

/-- Model of `LieAlgebras.ParentMethods.bracket(self, lhs, rhs)`.  Source:

    if lhs in LieAlgebras:
        if rhs in LieAlgebras:
            return lhs.product_space(rhs)
        return lhs.ideal(rhs)
    elif rhs in LieAlgebras:
        return rhs.ideal(lhs)
    return self(lhs)._bracket_(self(rhs))
-/
def bracket {S A P I : Type} (L : LieAlg A) (ops : ParentOps S A P I) :
    BOperand S A → BOperand S A → BracketResult P I A
  | BOperand.alg l, BOperand.alg r => BracketResult.prodSpace (ops.productSpace l r)
  | BOperand.alg l, BOperand.elem r => BracketResult.idealOf (ops.ideal l r)
  | BOperand.elem l, BOperand.alg r => BracketResult.idealOf (ops.ideal r l)
  | BOperand.elem l, BOperand.elem r =>
      BracketResult.elem (L.bracketE (ops.coe l) (ops.coe r))

/-- Model of a field as seen through the queries the subfield-subcode code
makes: `is_finite()`, `characteristic()` (`p`), and `order()` (`p ^ e`).
`label` distinguishes distinct field objects of equal order (such as
`GF(4, a)` and `GF(4, b)`) and plays no arithmetic role. -/
structure FieldModel where
  finite : Bool
  p : Nat
  e : Nat
  label : Nat
  deriving DecidableEq

/-- The field order `p ^ e`, the value of `order()`. -/
def FieldModel.order (F : FieldModel) : Nat := F.p ^ F.e

/-- Model of a linear code as seen through the queries the subfield-subcode
code makes: `isinstance(-, AbstractLinearCode)`, `length()`, `dimension()`
and `base_field()`. -/
structure CodeModel where
  isLinear : Bool
  length : Nat
  dimension : Nat
  baseField : FieldModel
  deriving DecidableEq

/-- The state a successfully constructed `SubfieldSubcode` carries:
`self._original_code`, and the base field and length passed to
`AbstractLinearCode.__init__`. -/
structure SubfieldSubcode where
  originalCode : CodeModel
  baseField : FieldModel
  length : Nat
  deriving DecidableEq

/-- Model of `SubfieldSubcode.__init__(original_code, subfield)`.  Source:

    if not isinstance(original_code, AbstractLinearCode):
        raise ValueError("original_code must be a linear code")
    if not subfield.is_finite():
        raise ValueError("subfield has to be a finite field")
    p = subfield.characteristic()
    s = log(subfield.order(), p)
    sm = log(original_code.base_field().order(), p)
    if not s.divides(sm):
        raise ValueError("subfield has to be a subfield of the base field of the original code")
    self._original_code = original_code
    super().__init__(subfield, original_code.length(), ...)

The exact base-`p` logarithm of a field order is `Nat.log`. -/
def subfieldSubcode (C : CodeModel) (subfield : FieldModel) :
    Except String SubfieldSubcode :=
  if C.isLinear = false then
    Except.error "original_code must be a linear code"
  else if subfield.finite = false then
    Except.error "subfield has to be a finite field"
  else
    let p := subfield.p
    let s := Nat.log p subfield.order
    let sm := Nat.log p C.baseField.order
    if ¬ s ∣ sm then
      Except.error "subfield has to be a subfield of the base field of the original code"
    else
      Except.ok { originalCode := C, baseField := subfield, length := C.length }

/-- Model of `SubfieldSubcode.dimension_upper_bound`.  Source:

    return self.original_code().dimension()
-/
def dimension_upper_bound (Cs : SubfieldSubcode) : Nat :=
  Cs.originalCode.dimension

/-- Model of `SubfieldSubcode.dimension_lower_bound`.  Source:

    C = self.original_code()
    n = C.length()
    k = C.dimension()
    F = C.base_field()
    t = log(F.order() // self.base_field().order(), F.characteristic())
    return n - t*(n-k)

Sage `Integer` arithmetic is exact and signed, so the result lives in `Int`. -/
def dimension_lower_bound (Cs : SubfieldSubcode) : Int :=
  let C := Cs.originalCode
  let n : Int := C.length
  let k : Int := C.dimension
  let t : Int := Nat.log C.baseField.p (C.baseField.order / Cs.baseField.order)
  n - t * (n - k)

/-- Model of `SubfieldSubcode.__eq__`.  Source:

    return isinstance(other, SubfieldSubcode) \
            and self.original_code() == other.original_code() \
            and self.base_field().order() == other.base_field().order()

Both arguments are `SubfieldSubcode`s here, so the `isinstance` test holds. -/
def ssEq (c1 c2 : SubfieldSubcode) : Bool :=
  (c1.originalCode == c2.originalCode) &&
    (c1.baseField.order == c2.baseField.order)

/-- A concrete Lie-algebra model over the integers, nilpotent (in fact
abelian: the bracket is identically zero) with two generators. -/
def nilEx : LieAlg Int :=
  { zero := 0
    add := fun a b => a + b
    bracketE := fun _ _ => 0
    nilpotent := true
    generators := some [1, 2]
    beq := fun a b => a == b }

/-- A concrete Lie-algebra model not known to be nilpotent, whose
generating set is not finitely enumerable. -/
def freeEx : LieAlg Int :=
  { zero := 0
    add := fun a b => a + b
    bracketE := fun _ _ => 0
    nilpotent := false
    generators := none
    beq := fun a b => a == b }

/-- A concrete finite BCH iterator: nonzero terms at indices 0 and 1
(depths 1 and 2), a zero term at index 2, stopping after three terms. -/
def iterEx : BCHIter Int :=
  { term := fun k => if k < 2 then 5 else 0
    len := some 3 }

/-- A concrete never-stopping BCH iterator, as produced for elements of an
algebra that is not nilpotent. -/
def iterInfEx : BCHIter Int :=
  { term := fun k => Int.ofNat k + 1
    len := none }

/-- Concrete external operations for `bracket` over `nilEx`, with trivial
product-space and ideal codomains and the identity coercion. -/
def opsEx : ParentOps Unit Int Unit Unit :=
  { productSpace := fun _ _ => ()
    ideal := fun _ _ => ()
    coe := fun a => a }

/-- The field `GF(16)`: order `2 ^ 4`. -/
def gf16 : FieldModel := { finite := true, p := 2, e := 4, label := 0 }

/-- The field `GF(8)`: order `2 ^ 3`. -/
def gf8 : FieldModel := { finite := true, p := 2, e := 3, label := 0 }

/-- A field `GF(4, a)`: order `2 ^ 2`. -/
def gf4a : FieldModel := { finite := true, p := 2, e := 2, label := 0 }

/-- A distinct field `GF(4, b)` of the same order `2 ^ 2`. -/
def gf4b : FieldModel := { finite := true, p := 2, e := 2, label := 1 }

/-- A concrete `[7, 3]` linear code over `GF(16)`. -/
def codeEx : CodeModel :=
  { isLinear := true, length := 7, dimension := 3, baseField := gf16 }

/-- The subfield subcode of `codeEx` over `gf4a`. -/
def subcodeEx4a : SubfieldSubcode :=
  { originalCode := codeEx, baseField := gf4a, length := 7 }

/-- The subfield subcode of `codeEx` over `gf4b`. -/
def subcodeEx4b : SubfieldSubcode :=
  { originalCode := codeEx, baseField := gf4b, length := 7 }

/-- Folding a list extension: summing `xs ++ ys` continues the fold of
`xs` through `ys`. -/
theorem lsum_append {A : Type} (L : LieAlg A) (xs ys : List A) :
    lsum L (xs ++ ys) = ys.foldl L.add (lsum L xs) := by
  simp [lsum, List.foldl_append]

/-- When all terms from index `m` on are zero and zero is right-neutral,
summing the first `N ≥ m` terms equals summing the first `m`. -/
theorem lsum_range_map_zero_tail {A : Type} (L : LieAlg A) (f : Nat → A)
    (hid : ∀ a, L.add a L.zero = a) (m : Nat)
    (hz : ∀ k, m ≤ k → f k = L.zero) :
    ∀ N, m ≤ N →
      lsum L ((List.range N).map f) = lsum L ((List.range m).map f) := by
  intro N
  induction N with
  | zero =>
    intro h
    have h0 : m = 0 := Nat.le_zero.mp h
    rw [h0]
  | succ n ih =>
    intro h
    rcases Nat.lt_or_ge m (n + 1) with hlt | hge
    · have hmn : m ≤ n := Nat.lt_succ_iff.mp hlt
      rw [List.range_succ, List.map_append, lsum_append]
      simp only [List.map_cons, List.map_nil, List.foldl_cons, List.foldl_nil]
      rw [hz n hmn, hid, ih hmn]
    · have heq : m = n + 1 := Nat.le_antisymm h hge
      rw [heq]

/-- Exact base-2 logarithm of 4. -/
theorem log2_4 : Nat.log 2 4 = 2 := by
  rw [show (4 : Nat) = 2 ^ 2 by norm_num]
  exact Nat.log_pow (by norm_num) 2

/-- Exact base-2 logarithm of 16. -/
theorem log2_16 : Nat.log 2 16 = 4 := by
  rw [show (16 : Nat) = 2 ^ 4 by norm_num]
  exact Nat.log_pow (by norm_num) 4

/-- A successful construction returns exactly the record carrying the
original code, the subfield and the original length. -/
theorem subfieldSubcode_ok_shape (C : CodeModel) (F : FieldModel)
    (Cs : SubfieldSubcode) (h : subfieldSubcode C F = Except.ok Cs) :
    Cs = { originalCode := C, baseField := F, length := C.length } := by
  by_cases h1 : C.isLinear = false
  · simp [subfieldSubcode, h1] at h
  · by_cases h2 : F.finite = false
    · simp [subfieldSubcode, h1, h2] at h
    · by_cases h3 : Nat.log F.p F.order ∣ Nat.log F.p C.baseField.order
      · simp [subfieldSubcode, h1, h2, h3] at h
        exact h.symm
      · simp [subfieldSubcode, h1, h2, h3] at h

/-- A successful construction implies the exponent-divisibility check
passed. -/
theorem subfieldSubcode_ok_dvd (C : CodeModel) (F : FieldModel)
    (Cs : SubfieldSubcode) (h : subfieldSubcode C F = Except.ok Cs) :
    Nat.log F.p F.order ∣ Nat.log F.p C.baseField.order := by
  by_cases h1 : C.isLinear = false
  · simp [subfieldSubcode, h1] at h
  · by_cases h2 : F.finite = false
    · simp [subfieldSubcode, h1, h2] at h
    · by_cases h3 : Nat.log F.p F.order ∣ Nat.log F.p C.baseField.order
      · exact h3
      · simp [subfieldSubcode, h1, h2, h3] at h

/-- Concrete evaluation: constructing the subcode of `codeEx` over
`gf4a` succeeds. -/
theorem subfieldSubcode_gf4a :
    subfieldSubcode codeEx gf4a = Except.ok subcodeEx4a := by
  simp [subfieldSubcode, codeEx, gf4a, gf16, subcodeEx4a, FieldModel.order,
    log2_4, log2_16]

/-- Concrete evaluation: constructing the subcode of `codeEx` over
`gf4b` succeeds. -/
theorem subfieldSubcode_gf4b :
    subfieldSubcode codeEx gf4b = Except.ok subcodeEx4b := by
  simp [subfieldSubcode, codeEx, gf4b, gf16, subcodeEx4b, FieldModel.order,
    log2_4, log2_16]

/-- C1: on an algebra in the Nilpotent category with `prec` omitted, `bch`
returns the sum of the entire finite term sequence of the iterator; for
every algebra (nilpotent or not) with an explicit integer `prec`, `bch`
returns the sum of exactly the first `prec` terms the iterator produces —
all `prec` of them whenever the iterator yields that many, in particular
always when it never stops — and its value depends on no further terms. -/
theorem bch_sums_iterator_terms {A : Type} (L : LieAlg A) (it : BCHIter A)
    (p : Int) :
    (∀ N, L.nilpotent = true → it.len = some N →
      bch L it none = BCHResult.ok (lsum L ((List.range N).map it.term))) ∧
    bch L it (some p) = BCHResult.ok (lsum L (firstTerms it p.toNat)) ∧
    (∀ N, it.len = some N → p.toNat ≤ N →
      firstTerms it p.toNat = (List.range p.toNat).map it.term) ∧
    (it.len = none →
      firstTerms it p.toNat = (List.range p.toNat).map it.term) ∧
    (∀ it2 : BCHIter A, firstTerms it p.toNat = firstTerms it2 p.toNat →
      bch L it (some p) = bch L it2 (some p)) := by
  refine ⟨?_, ?_, ?_, ?_, ?_⟩
  · intro N hnil hlen
    simp [bch, hnil, hlen]
  · simp [bch]
  · intro N hlen hle
    simp [firstTerms, hlen, Nat.min_eq_left hle]
  · intro hlen
    simp [firstTerms, hlen]
  · intro it2 hagree
    simp [bch, hagree]

/-- Witness for C1: the nilpotent model with its finite iterator for the
omitted-`prec` branch, and the non-nilpotent model with a never-stopping
iterator for the explicit-`prec` branch. -/
theorem bch_sums_iterator_terms_witness :
    bch nilEx iterEx none =
      BCHResult.ok (lsum nilEx ((List.range 3).map iterEx.term)) ∧
    bch freeEx iterInfEx (some 4) =
      BCHResult.ok (lsum freeEx (firstTerms iterInfEx (Int.toNat 4))) ∧
    firstTerms iterInfEx (Int.toNat 4) =
      (List.range (Int.toNat 4)).map iterInfEx.term :=
  ⟨(bch_sums_iterator_terms nilEx iterEx 4).1 3 rfl rfl,
   (bch_sums_iterator_terms freeEx iterInfEx 4).2.1,
   (bch_sums_iterator_terms freeEx iterInfEx 4).2.2.2.1 rfl⟩

/-- C2: with `prec` omitted, `bch` raises the precision-required error
exactly on algebras not known to be nilpotent: it computes nothing on a
non-nilpotent algebra, and never raises this error on a nilpotent one. -/
theorem bch_precision_required {A : Type} (L : LieAlg A) (it : BCHIter A) :
    (L.nilpotent = false → bch L it none = BCHResult.precisionError) ∧
    (L.nilpotent = true → bch L it none ≠ BCHResult.precisionError) := by
  constructor
  · intro h
    simp [bch, h]
  · intro h
    cases hlen : it.len with
    | none => simp [bch, h, hlen]
    | some N => simp [bch, h, hlen]

/-- Witness for C2: the non-nilpotent model errors, the nilpotent one
does not. -/
theorem bch_precision_required_witness :
    bch freeEx iterEx none = BCHResult.precisionError ∧
    bch nilEx iterEx none ≠ BCHResult.precisionError :=
  ⟨(bch_precision_required freeEx iterEx).1 rfl,
   (bch_precision_required nilEx iterEx).2 rfl⟩

/-- C3: on a nilpotent algebra whose iterator terms of depth beyond the
step `s` vanish (term index `k` has depth `k + 1`), `bch` with `prec`
omitted returns the same element as `bch` at any precision `p ≥ s`
(zero is right-neutral for addition, as in any module). -/
theorem bch_default_matches_high_precision {A : Type} (L : LieAlg A)
    (it : BCHIter A) (s N : Nat) (p : Int) (hnil : L.nilpotent = true)
    (hlen : it.len = some N) (hzero : ∀ k, s ≤ k → it.term k = L.zero)
    (hid : ∀ a, L.add a L.zero = a) (hp : (s : Int) ≤ p) :
    bch L it none = bch L it (some p) := by
  have hs : s ≤ p.toNat := by omega
  have key : lsum L ((List.range N).map it.term) =
      lsum L ((List.range (min p.toNat N)).map it.term) := by
    rcases Nat.le_total N p.toNat with hle | hle
    · rw [Nat.min_eq_right hle]
    · rw [Nat.min_eq_left hle]
      exact lsum_range_map_zero_tail L it.term hid p.toNat
        (fun k hk => hzero k (le_trans hs hk)) N hle
  simp [bch, hnil, hlen, firstTerms, key]

/-- Witness for C3: step 2, precision 5, on the concrete model. -/
theorem bch_default_matches_high_precision_witness :
    bch nilEx iterEx none = bch nilEx iterEx (some 5) :=
  bch_default_matches_high_precision nilEx iterEx 2 3 5 rfl rfl
    (fun k hk => by simp [iterEx, nilEx, Nat.not_lt.mpr hk])
    (fun a => Int.add_zero a) (by decide)

/-- C4: `bracket` dispatches in exactly three ways: the product space when
both operands are Lie-algebra-like, the ideal of the Lie-algebra-like
operand generated by the plain one when exactly one is (either order), and
the element bracket of both operands coerced into `self` otherwise. -/
theorem bracket_dispatch {S A P I : Type} (L : LieAlg A)
    (ops : ParentOps S A P I) (l r : S) (x y : A) :
    bracket L ops (BOperand.alg l) (BOperand.alg r) =
      BracketResult.prodSpace (ops.productSpace l r) ∧
    bracket L ops (BOperand.alg l) (BOperand.elem y) =
      BracketResult.idealOf (ops.ideal l y) ∧
    bracket L ops (BOperand.elem x) (BOperand.alg r) =
      BracketResult.idealOf (ops.ideal r x) ∧
    bracket L ops (BOperand.elem x) (BOperand.elem y) =
      BracketResult.elem (L.bracketE (ops.coe x) (ops.coe y)) :=
  ⟨rfl, rfl, rfl, rfl⟩

/-- C5: when the element bracket is additive in each argument over the
parent addition (bilinearity), addition has zero as a right-neutral
element and is left-cancellative, and coercion fixes elements of `self`,
the bracket of any element with the zero element is zero on either side. -/
theorem bracket_with_zero {S A P I : Type} (L : LieAlg A)
    (ops : ParentOps S A P I) (x : A)
    (hcoe : ∀ a : A, ops.coe a = a)
    (hidr : ∀ a, L.add a L.zero = a)
    (hcancel : ∀ a b c, L.add a b = L.add a c → b = c)
    (haddl : ∀ a b c, L.bracketE (L.add a b) c =
      L.add (L.bracketE a c) (L.bracketE b c))
    (haddr : ∀ a b c, L.bracketE a (L.add b c) =
      L.add (L.bracketE a b) (L.bracketE a c)) :
    bracket L ops (BOperand.elem x) (BOperand.elem L.zero) =
      BracketResult.elem L.zero ∧
    bracket L ops (BOperand.elem L.zero) (BOperand.elem x) =
      BracketResult.elem L.zero := by
  have h00 : L.add L.zero L.zero = L.zero := hidr L.zero
  have hr : ∀ a, L.bracketE a L.zero = L.zero := by
    intro a
    have h1 := haddr a L.zero L.zero
    rw [h00] at h1
    have h2 : L.add (L.bracketE a L.zero) L.zero =
        L.add (L.bracketE a L.zero) (L.bracketE a L.zero) := by
      rw [hidr (L.bracketE a L.zero)]
      exact h1
    exact (hcancel _ _ _ h2).symm
  have hl : ∀ a, L.bracketE L.zero a = L.zero := by
    intro a
    have h1 := haddl L.zero L.zero a
    rw [h00] at h1
    have h2 : L.add (L.bracketE L.zero a) L.zero =
        L.add (L.bracketE L.zero a) (L.bracketE L.zero a) := by
      rw [hidr (L.bracketE L.zero a)]
      exact h1
    exact (hcancel _ _ _ h2).symm
  constructor
  · simp [bracket, hcoe, hr]
  · simp [bracket, hcoe, hl]

/-- Witness for C5 at the concrete model with identically-zero bracket. -/
theorem bracket_with_zero_witness :
    bracket nilEx opsEx (BOperand.elem 7) (BOperand.elem nilEx.zero) =
      BracketResult.elem nilEx.zero ∧
    bracket nilEx opsEx (BOperand.elem nilEx.zero) (BOperand.elem 7) =
      BracketResult.elem nilEx.zero :=
  bracket_with_zero nilEx opsEx 7
    (fun a => rfl)
    (fun a => Int.add_zero a)
    (fun a b c h => by simp [nilEx] at h; omega)
    (fun a b c => by simp [nilEx])
    (fun a b c => by simp [nilEx])

/-- C6: with a finite enumerable generating set, `is_abelian` answers true
exactly when all ordered pairwise generator brackets are zero; otherwise
it raises the error "infinite number of generators" (element `==` assumed
to agree with equality). -/
theorem is_abelian_spec {A : Type} (L : LieAlg A)
    (hbeq : ∀ a b, L.beq a b = true ↔ a = b) :
    (∀ G, L.generators = some G →
      (is_abelian L = Except.ok true ↔
        ∀ x ∈ G, ∀ y ∈ G, L.bracketE x y = L.zero)) ∧
    (L.generators = none →
      is_abelian L = Except.error "infinite number of generators") := by
  constructor
  · intro G hG
    simp [is_abelian, hG, List.all_eq_true, hbeq]
  · intro hG
    simp [is_abelian, hG]

/-- Witness for C6: the concrete abelian model answers true, the model
with no finite generating set errors. -/
theorem is_abelian_spec_witness :
    is_abelian nilEx = Except.ok true ∧
    is_abelian freeEx = Except.error "infinite number of generators" :=
  ⟨((is_abelian_spec nilEx (fun a b => by simp [nilEx])).1 [1, 2] rfl).mpr
      (by decide),
   (is_abelian_spec freeEx (fun a b => by simp [freeEx])).2 rfl⟩

/-- C10: `is_commutative` returns exactly the result of `is_abelian`:
the same answer, or the same error. -/
theorem is_commutative_eq_is_abelian {A : Type} (L : LieAlg A) :
    is_commutative L = is_abelian L := rfl

/-- C7: with the subfield of order `p ^ s` and the original base field of
order `p ^ sm` over the same characteristic `p > 1`, construction fails
with a validation error exactly when one of the three preconditions is
violated (`original_code` not linear, subfield not finite, or `s` not
dividing `sm`), and otherwise produces the subcode object. -/
theorem subfieldSubcode_validation (C : CodeModel) (F : FieldModel)
    (hp : 1 < F.p) (hpc : C.baseField.p = F.p) :
    ((∃ msg, subfieldSubcode C F = Except.error msg) ↔
      (C.isLinear = false ∨ F.finite = false ∨ ¬ F.e ∣ C.baseField.e)) ∧
    (subfieldSubcode C F =
        Except.ok { originalCode := C, baseField := F, length := C.length } ↔
      (C.isLinear = true ∧ F.finite = true ∧ F.e ∣ C.baseField.e)) := by
  have hs : Nat.log F.p (FieldModel.order F) = F.e := by
    simp [FieldModel.order, Nat.log_pow hp]
  have hsm : Nat.log F.p (FieldModel.order C.baseField) = C.baseField.e := by
    simp [FieldModel.order, hpc, Nat.log_pow hp]
  cases h1 : C.isLinear with
  | false => simp [subfieldSubcode, h1]
  | true =>
    cases h2 : F.finite with
    | false => simp [subfieldSubcode, h1, h2]
    | true =>
      by_cases h3 : F.e ∣ C.baseField.e
      · simp [subfieldSubcode, h1, h2, hs, hsm, h3]
      · simp [subfieldSubcode, h1, h2, hs, hsm, h3]

/-- Witness for C7: the documented failing example, subfield `GF(8)`
against an original code over `GF(16)` (`s = 3` does not divide `sm = 4`). -/
theorem subfieldSubcode_validation_witness :
    ∃ msg, subfieldSubcode codeEx gf8 = Except.error msg :=
  ((subfieldSubcode_validation codeEx gf8 (by decide) (by decide)).1).mpr
    (Or.inr (Or.inr (by decide)))

/-- C8: on a validly constructed subcode over common characteristic
`p > 1`, `dimension_upper_bound` returns exactly the original code's
dimension (hence never exceeds it), and `dimension_lower_bound` returns
exactly `n - t * (n - k)` in exact signed integer arithmetic, where
`t = log_p(F.order / subfield.order) = sm - s`. -/
theorem subfieldSubcode_dimension_bounds (C : CodeModel) (F : FieldModel)
    (Cs : SubfieldSubcode) (hok : subfieldSubcode C F = Except.ok Cs)
    (hp : 1 < F.p) (hpc : C.baseField.p = F.p)
    (hbe : 0 < C.baseField.e) :
    dimension_upper_bound Cs = C.dimension ∧
    dimension_upper_bound Cs ≤ C.dimension ∧
    dimension_lower_bound Cs =
      (C.length : Int) - ((C.baseField.e - F.e : Nat) : Int) *
        ((C.length : Int) - (C.dimension : Int)) := by
  have hs : Nat.log F.p (FieldModel.order F) = F.e := by
    simp [FieldModel.order, Nat.log_pow hp]
  have hsm : Nat.log F.p (FieldModel.order C.baseField) = C.baseField.e := by
    simp [FieldModel.order, hpc, Nat.log_pow hp]
  have hdvd : F.e ∣ C.baseField.e := by
    have h := subfieldSubcode_ok_dvd C F Cs hok
    rwa [hs, hsm] at h
  have hshape := subfieldSubcode_ok_shape C F Cs hok
  subst hshape
  have h0p : 0 < F.p := by omega
  have hle : F.e ≤ C.baseField.e := Nat.le_of_dvd hbe hdvd
  have hdiv : FieldModel.order C.baseField / FieldModel.order F
      = F.p ^ (C.baseField.e - F.e) := by
    simp only [FieldModel.order, hpc]
    exact Nat.pow_div hle h0p
  refine ⟨rfl, le_refl _, ?_⟩
  simp [dimension_lower_bound, hdiv, hpc, Nat.log_pow hp]

/-- Witness for C8: the subcode of the `[7, 3]` code over `GF(16)`
restricted to `GF(4)`; the lower bound is `7 - 2 * 4 = -1`. -/
theorem subfieldSubcode_dimension_bounds_witness :
    (dimension_upper_bound subcodeEx4a = codeEx.dimension ∧
      dimension_upper_bound subcodeEx4a ≤ codeEx.dimension ∧
      dimension_lower_bound subcodeEx4a =
        (codeEx.length : Int) - ((codeEx.baseField.e - gf4a.e : Nat) : Int) *
          ((codeEx.length : Int) - (codeEx.dimension : Int))) ∧
    dimension_lower_bound subcodeEx4a = -1 := by
  have h := subfieldSubcode_dimension_bounds codeEx gf4a subcodeEx4a
    subfieldSubcode_gf4a (by decide) (by decide) (by decide)
  refine ⟨h, ?_⟩
  rw [h.2.2]
  decide

/-- C9: two subfield subcodes are equal exactly when their original codes
are equal and their subfields have the same order; in particular two
subcodes built from the same original code and subfields of equal order
compare equal. -/
theorem subfieldSubcode_eq_spec (B1 B2 : SubfieldSubcode) (C : CodeModel)
    (F1 F2 : FieldModel) (Cs1 Cs2 : SubfieldSubcode)
    (h1 : subfieldSubcode C F1 = Except.ok Cs1)
    (h2 : subfieldSubcode C F2 = Except.ok Cs2)
    (hord : F1.order = F2.order) :
    (ssEq B1 B2 = true ↔
      (B1.originalCode = B2.originalCode ∧
        B1.baseField.order = B2.baseField.order)) ∧
    ssEq Cs1 Cs2 = true := by
  constructor
  · simp [ssEq]
  · rw [subfieldSubcode_ok_shape C F1 Cs1 h1,
      subfieldSubcode_ok_shape C F2 Cs2 h2]
    simp [ssEq, hord]

/-- Witness for C9: the subcodes of `codeEx` over the distinct fields
`gf4a` and `gf4b` of equal order compare equal. -/
theorem subfieldSubcode_eq_spec_witness :
    ssEq subcodeEx4a subcodeEx4b = true :=
  (subfieldSubcode_eq_spec subcodeEx4a subcodeEx4b codeEx gf4a gf4b
    subcodeEx4a subcodeEx4b subfieldSubcode_gf4a subfieldSubcode_gf4b
    (by decide)).2

end Sage
